import Mathlib

/-
Verification development for the quantum-conway repository.

The embedding below models, in Lean, the code of:
  - src/src/main.rs           (CPU path: CellState, Grid, calculate_new_state,
                               update, get_neighbors, calculate_state_distribution)
  - src/src/simulation/cell.rs (partner codec: encode_partner / decode_partner)
  - src/src/config.rs          (NO_ENTANGLEMENT)

Modelling conventions:
  - f64 values are modelled as rationals; the arithmetic of the update rule
    (sums, averages, divisions) is exact in this model.  Division by zero is 0
    in the rational model where f64 would produce NaN; theorems about the
    zero-divisor case track the divisor explicitly.
  - u32 values are modelled as Nat with explicit reduction mod 2 ^ 32 where the
    Rust arithmetic wraps.
  - The thread rng is modelled as an explicit oracle of draws: the entanglement
    step consumes one draw per component (compared against the randomness
    factor) and the perturbation step consumes one draw per component
    (scaled by the randomness factor).  Draws of rand gen on f64 lie in [0,1).
  - Rust indexing panics are modelled by Option: a lookup out of bounds makes
    the surrounding computation return none.
-/

/-- Model of the probability-representation cell of main.rs: four state
probabilities and an optional entangled partner coordinate pair. -/
structure CellState where
  state_probabilities : List ℚ
  entangled_partner : Option (ℕ × ℕ)
deriving DecidableEq

/-- Model of the grid of main.rs: row-major cells plus declared dimensions. -/
structure Grid where
  cells : List (List CellState)
  width : ℕ
  height : ℕ
deriving DecidableEq

/-- Model of the dominant-state histogram record of main.rs. -/
structure StateDistribution where
  one : ℕ
  minus_one : ℕ
  complex : ℕ
deriving DecidableEq

/-- Random draws consumed by one application of the update rule to one cell:
sync draws feed the entanglement branch, jit draws feed the perturbation. -/
structure CellDraws where
  sync : ℕ → ℚ
  jit : ℕ → ℚ

/-- Sentinel from config.rs line 13. -/
def NO_ENTANGLEMENT : ℕ := 0xFFFFFFFF

/-- Model of encode_partner of simulation/cell.rs lines 87-92:
some (x, y) becomes (x shifted left 16, wrapping as u32) or-ed with the low
16 bits of y; none becomes the sentinel. -/
def encode_partner : Option (ℕ × ℕ) → ℕ
  | some (x, y) => ((x <<< 16) % 4294967296) ||| (y &&& 0xFFFF)
  | none => NO_ENTANGLEMENT

/-- Model of decode_partner of simulation/cell.rs lines 96-102. -/
def decode_partner (encoded : ℕ) : Option (ℕ × ℕ) :=
  if encoded = NO_ENTANGLEMENT then none
  else some (encoded >>> 16, encoded &&& 0xFFFF)

/-- One toroidal wrap: rem_euclid on isize against a dimension, cast back to
usize; modelled by the Euclidean Int.emod followed by toNat. -/
def wrap (a : ℤ) (m : ℕ) : ℕ := (a.emod m).toNat

/-- The eight relative offsets visited by get_neighbors in row-major order with
the center skipped, main.rs lines 180-184. -/
def neighbor_offsets : List (ℤ × ℤ) :=
  [(-1, -1), (-1, 0), (-1, 1), (0, -1), (0, 1), (1, -1), (1, 0), (1, 1)]

/-- Wrapped neighbor coordinates as computed in main.rs lines 186-187. -/
def neighbor_coords (row col width height : ℕ) : List (ℕ × ℕ) :=
  neighbor_offsets.map (fun d => (wrap ((row : ℤ) + d.1) height, wrap ((col : ℤ) + d.2) width))

/-- Monadic map over Option: the model of a Rust loop whose body can panic;
none models the panic of the whole loop. -/
def mapO (f : α → Option β) : List α → Option (List β)
  | [] => some []
  | x :: xs =>
    match f x, mapO f xs with
    | some y, some ys => some (y :: ys)
    | _, _ => none

/-- Double indexing grid[r][c] as in main.rs lines 63 and 189; none models the
index-out-of-bounds panic. -/
def lookup2 (grid : List (List CellState)) (r c : ℕ) : Option CellState :=
  (grid.get? r).bind (fun row => row.get? c)

/-- Model of Grid::get_neighbors, main.rs lines 171-194. -/
def get_neighbors (grid : List (List CellState)) (row col width height : ℕ) :
    Option (List CellState) :=
  mapO (fun rc => lookup2 grid rc.1 rc.2) (neighbor_coords row col width height)

/-- Entanglement synchronization loop of main.rs lines 66-70: each of the four
components is, when its sync draw falls below the randomness factor, replaced
by the average with the partner component. -/
def sync_step (randomness_factor : ℚ) (sync : ℕ → ℚ) (p q : List ℚ) : List ℚ :=
  (List.range 4).map (fun i =>
    if sync i < randomness_factor then (p.getD i 0 + q.getD i 0) / 2 else p.getD i 0)

/-- Neighbor influence accumulation of main.rs lines 74-79: componentwise sum
of the neighbor probability vectors. -/
def influence_of (neighbors : List CellState) : List ℚ :=
  (List.range 4).map (fun i => (neighbors.map (fun n => n.state_probabilities.getD i 0)).sum)

/-- Influence normalization with its positive-sum guard, main.rs lines 82-87. -/
def normalize_influence (l : List ℚ) : List ℚ :=
  if 0 < l.sum then l.map (fun x => x / l.sum) else l

/-- Blend with the normalized influence plus additive jitter, main.rs
lines 90-93. -/
def blend_jitter (randomness_factor : ℚ) (jit : ℕ → ℚ) (p influence : List ℚ) : List ℚ :=
  (List.range 4).map (fun i =>
    (p.getD i 0 + influence.getD i 0) / 2 + jit i * randomness_factor)

/-- The probability vector reaching the final renormalization of main.rs
line 96. -/
def pre_renorm (randomness_factor : ℚ) (d : CellDraws) (p : List ℚ)
    (neighbors : List CellState) : List ℚ :=
  blend_jitter randomness_factor d.jit p (normalize_influence (influence_of neighbors))

/-- Unconditional final renormalization, main.rs lines 96-99.  There is no
zero-divisor guard in the source; the rational model yields zeros on a zero
divisor where f64 would yield NaN. -/
def renormalize (l : List ℚ) : List ℚ := l.map (fun x => x / l.sum)

/-- Assembled new state: probabilities replaced, every other field (the
entangled partner) carried over from the clone taken at main.rs line 55. -/
def finish (randomness_factor : ℚ) (d : CellDraws) (p : List ℚ)
    (neighbors : List CellState) (current : CellState) : CellState :=
  { current with state_probabilities := renormalize (pre_renorm randomness_factor d p neighbors) }

/-- Model of Grid::calculate_new_state, main.rs lines 54-102.  The randomness
factor is a parameter (the source fixes it to 1/100 at line 59).  The partner
lookup grid[partner_x][partner_y] at line 63 has no bounds reduction, so an
out-of-range partner coordinate makes the result none (the Rust panic). -/
def calculate_new_state (randomness_factor : ℚ) (d : CellDraws)
    (grid : List (List CellState)) (current_state : CellState)
    (neighbors : List CellState) : Option CellState :=
  match current_state.entangled_partner with
  | none => some (finish randomness_factor d current_state.state_probabilities neighbors
      current_state)
  | some (px, py) =>
    match lookup2 grid px py with
    | none => none
    | some partner =>
      some (finish randomness_factor d
        (sync_step randomness_factor d.sync current_state.state_probabilities
          partner.state_probabilities)
        neighbors current_state)

/-- One per-cell step of Grid::update, main.rs lines 165-166: the neighbors and
the current cell are both read from the immutable pre-tick snapshot held in g. -/
def cell_step (randomness_factor : ℚ) (draws : ℕ → ℕ → CellDraws) (g : Grid) (i j : ℕ) :
    Option CellState :=
  match get_neighbors g.cells i j g.width g.height with
  | none => none
  | some nbrs =>
    match lookup2 g.cells i j with
    | none => none
    | some cur => calculate_new_state randomness_factor (draws i j) g.cells cur nbrs

/-- Model of Grid::update, main.rs lines 158-169: for every row index i and
every column j in 0..width, the written cell is computed from the snapshot
clone taken at line 161. -/
def Grid.update (randomness_factor : ℚ) (draws : ℕ → ℕ → CellDraws) (g : Grid) : Option Grid :=
  (mapO (fun i => mapO (fun j => cell_step randomness_factor draws g i j) (List.range g.width))
      (List.range g.cells.length)).map
    (fun cells2 => { g with cells := cells2 })

/-- Iterated whole-grid ticks as driven by the event loop of main.rs line 288;
tick number n consumes the draw block draws n. -/
def Grid.ticks (randomness_factor : ℚ) (draws : ℕ → ℕ → ℕ → CellDraws) : ℕ → Grid → Option Grid
  | 0, g => some g
  | n + 1, g => (Grid.update randomness_factor (draws n) g).bind (Grid.ticks randomness_factor draws n)

/-- Fold step of the Rust iterator max_by used at main.rs lines 35-40: the
accumulator is kept only when it is strictly greater, so the later element
wins ties. -/
def max_by_step (acc : Option (ℕ × ℚ)) (x : ℕ × ℚ) : Option (ℕ × ℚ) :=
  match acc with
  | none => some x
  | some y => if x.2 < y.2 then some y else some x

/-- Model of the arg-max computation of calculate_state_distribution,
main.rs lines 35-40: enumerate then max_by on the values, keep the index. -/
def max_prob_index (l : List ℚ) : Option ℕ :=
  (l.enum.foldl max_by_step none).map Prod.fst

/-- Bucket increment of main.rs lines 42-47. -/
def bump (d : StateDistribution) (c : CellState) : StateDistribution :=
  match max_prob_index c.state_probabilities with
  | some 0 => { d with one := d.one + 1 }
  | some 1 => { d with minus_one := d.minus_one + 1 }
  | some 2 => { d with complex := d.complex + 1 }
  | some 3 => { d with complex := d.complex + 1 }
  | _ => d

/-- Model of Grid::calculate_state_distribution, main.rs lines 26-52. -/
def Grid.calculate_state_distribution (g : Grid) : StateDistribution :=
  g.cells.foldl (fun d row => row.foldl bump d) ⟨0, 0, 0⟩

/-- Probability well-formedness of one cell: four components, all non-negative,
with total mass exactly one (the exact-arithmetic form of the invariant; the
1e-3 tolerance of the spec absorbs f64 rounding). -/
def ProbWF (c : CellState) : Prop :=
  c.state_probabilities.length = 4 ∧ (∀ p ∈ c.state_probabilities, 0 ≤ p) ∧
    c.state_probabilities.sum = 1

/-- Grid well-formedness: declared dimensions match the cell collection and
every cell satisfies the probability invariant. -/
def Grid.WF (g : Grid) : Prop :=
  g.cells.length = g.height ∧ (∀ row ∈ g.cells, row.length = g.width) ∧
    ∀ row ∈ g.cells, ∀ c ∈ row, ProbWF c

instance (c : CellState) : Decidable (ProbWF c) := by
  unfold ProbWF
  infer_instance

instance (g : Grid) : Decidable (Grid.WF g) := by
  unfold Grid.WF
  infer_instance

/-- Uniform cell of the fixed-point scenario. -/
def uCell : CellState := ⟨[1/4, 1/4, 1/4, 1/4], none⟩

/-- The 3 by 3 uniform grid of the fixed-point scenario, no entanglement. -/
def uniformGrid3 : Grid := ⟨List.replicate 3 (List.replicate 3 uCell), 3, 3⟩

/-- A 1 by 1 uniform grid used as a concrete witness input. -/
def uniformGrid1 : Grid := ⟨[[uCell]], 1, 1⟩

/-- The all-zero draw oracle (every rng draw is 0, the minimum of [0,1)). -/
def zeroDraws : CellDraws := ⟨fun _ => 0, fun _ => 0⟩

/-- The rational one half, given by its raw normalized representation so that
comparisons on it evaluate inside the kernel. -/
def half : ℚ := ⟨1, 2, by decide, by decide⟩

/-- A cell whose first two components tie for the maximum at one half. -/
def tieCell : CellState := ⟨[half, half, 0, 0], none⟩

/-- One-cell grid holding the tied cell. -/
def tieGrid : Grid := ⟨[[tieCell]], 1, 1⟩

/-- Degenerate all-zero cell used to reach the zero renormalization divisor. -/
def zeroCell : CellState := ⟨[0, 0, 0, 0], none⟩

/-- A cell whose partner coordinate (1, 0) is in bounds as an (x, y) pair of a
2-wide, 1-high grid. -/
def badCellA : CellState := ⟨[1, 0, 0, 0], some (1, 0)⟩

/-- Partner-free companion cell. -/
def badCellB : CellState := ⟨[1, 0, 0, 0], none⟩

/-- Well-formed 2-wide, 1-high grid on which the partner dereference
grid[1][0] runs off the single row. -/
def badGrid : Grid := ⟨[[badCellA, badCellB]], 2, 1⟩

section CodecLemmas

/-- The wrapping left shift by 16 keeps exactly the low 16 bits of the input,
moved to the high half. -/
theorem shiftLeft16_mod (x : ℕ) : (x <<< 16) % 4294967296 = x % 65536 * 65536 := by
  rw [Nat.shiftLeft_eq]
  have h32 : (4294967296 : ℕ) = 65536 * 65536 := by norm_num
  have h16 : (2 : ℕ) ^ 16 = 65536 := by norm_num
  rw [h16, h32, Nat.mul_mod_mul_right]

/-- Masking with 0xFFFF is reduction mod 65536. -/
theorem and_FFFF (y : ℕ) : y &&& 0xFFFF = y % 65536 := by
  have h := Nat.and_pow_two_sub_one_eq_mod y 16
  norm_num at h
  exact h

/-- Oring a multiple of 65536 with a value below 65536 is addition. -/
theorem lor_split (a b : ℕ) (hb : b < 65536) : (a * 65536) ||| b = a * 65536 + b := by
  have h16 : (65536 : ℕ) = 2 ^ 16 := by norm_num
  have hmod : ((a * 65536) ||| b) % 65536 = b := by
    rw [← and_FFFF]
    have hdist := Nat.and_distrib_right (a * 65536) b 0xFFFF
    rw [hdist, and_FFFF, and_FFFF, Nat.mul_mod_left, Nat.mod_eq_of_lt hb]
    simp
  have hdiv : ((a * 65536) ||| b) / 65536 = a := by
    have hsr : ((a * 65536) ||| b) >>> 16 = a := by
      apply Nat.eq_of_testBit_eq
      intro i
      rw [Nat.testBit_shiftRight]
      have hmul : a * 65536 = a <<< 16 := by
        rw [Nat.shiftLeft_eq, h16]
      rw [Nat.testBit_or, hmul, Nat.testBit_shiftLeft]
      have hbb : b.testBit (16 + i) = false := by
        apply Nat.testBit_lt_two_pow
        calc b < 65536 := hb
        _ = 2 ^ 16 := h16
        _ ≤ 2 ^ (16 + i) := Nat.pow_le_pow_right (by norm_num) (by omega)
      rw [hbb]
      simp [Nat.add_sub_cancel_left, Nat.le_add_right]
    rw [Nat.shiftRight_eq_div_pow] at hsr
    rw [← h16] at hsr
    exact hsr
  have := Nat.div_add_mod ((a * 65536) ||| b) 65536
  omega

end CodecLemmas

section ListLemmas

theorem range4_eq : List.range 4 = [0, 1, 2, 3] := rfl

theorem sum_map_div (l : List ℚ) (T : ℚ) : (l.map (fun x => x / T)).sum = l.sum / T := by
  induction l with
  | nil => simp
  | cons x xs ih => simp [ih, add_div]

theorem getD_nonneg : ∀ (l : List ℚ), (∀ x ∈ l, 0 ≤ x) → ∀ i, 0 ≤ l.getD i 0 := by
  intro l
  induction l with
  | nil => intro _ i; cases i <;> simp [List.getD]
  | cons x xs ih =>
    intro h i
    cases i with
    | zero => exact h x (by simp)
    | succ n => simpa using ih (fun y hy => h y (by simp [hy])) n

theorem exists_len4 (l : List ℚ) (h : l.length = 4) : ∃ a b c d : ℚ, l = [a, b, c, d] := by
  rcases l with _ | ⟨a, _ | ⟨b, _ | ⟨c, _ | ⟨d, _ | ⟨e, t⟩⟩⟩⟩⟩ <;> simp at h
  exact ⟨a, b, c, d, rfl⟩

theorem sum_range4 (f : ℕ → ℚ) : ((List.range 4).map f).sum = f 0 + f 1 + f 2 + f 3 := by
  rw [range4_eq]
  simp
  ring

theorem sum_getD4 (l : List ℚ) (h : l.length = 4) :
    l.getD 0 0 + l.getD 1 0 + l.getD 2 0 + l.getD 3 0 = l.sum := by
  obtain ⟨a, b, c, d, rfl⟩ := exists_len4 l h
  simp
  ring

end ListLemmas

section MapOLemmas

theorem mapO_length {α β : Type} (f : α → Option β) :
    ∀ (l : List α) (ys : List β), mapO f l = some ys → ys.length = l.length := by
  intro l
  induction l with
  | nil =>
    intro ys h
    simp [mapO] at h
    simp [← h]
  | cons x xs ih =>
    intro ys h
    unfold mapO at h
    cases hfx : f x with
    | none => rw [hfx] at h; simp at h
    | some y =>
      rw [hfx] at h
      cases hxs : mapO f xs with
      | none => rw [hxs] at h; simp at h
      | some zs =>
        rw [hxs] at h
        simp at h
        rw [← h]
        simp [ih zs hxs]

theorem mapO_get {α β : Type} (f : α → Option β) :
    ∀ (l : List α) (ys : List β), mapO f l = some ys →
      ∀ (i : ℕ) (x : α), l.get? i = some x → ys.get? i = f x := by
  intro l
  induction l with
  | nil => intro ys h i x hx; simp at hx
  | cons a xs ih =>
    intro ys h i x hx
    unfold mapO at h
    cases hfx : f a with
    | none => rw [hfx] at h; simp at h
    | some y =>
      rw [hfx] at h
      cases hxs : mapO f xs with
      | none => rw [hxs] at h; simp at h
      | some zs =>
        rw [hxs] at h
        simp at h
        cases i with
        | zero =>
          simp at hx
          rw [← h, ← hx]
          simp [hfx]
        | succ n =>
          simp at hx
          rw [← h]
          simpa using ih zs hxs n x (by rw [List.get?_eq_getElem?]; exact hx)

theorem mapO_mem {α β : Type} (f : α → Option β) :
    ∀ (l : List α) (ys : List β), mapO f l = some ys →
      ∀ y ∈ ys, ∃ x ∈ l, f x = some y := by
  intro l
  induction l with
  | nil =>
    intro ys h y hy
    simp [mapO] at h
    rw [h] at hy
    simp at hy
  | cons a xs ih =>
    intro ys h y hy
    unfold mapO at h
    cases hfx : f a with
    | none => rw [hfx] at h; simp at h
    | some z =>
      rw [hfx] at h
      cases hxs : mapO f xs with
      | none => rw [hxs] at h; simp at h
      | some zs =>
        rw [hxs] at h
        simp at h
        rw [← h] at hy
        rcases List.mem_cons.mp hy with hz | hz
        · exact ⟨a, by simp, by rw [hfx, hz]⟩
        · obtain ⟨x, hx1, hx2⟩ := ih zs hxs y hz
          exact ⟨x, by simp [hx1], hx2⟩

theorem mapO_total {α β : Type} (f : α → Option β) :
    ∀ (l : List α), (∀ x ∈ l, ∃ y, f x = some y) → ∃ ys, mapO f l = some ys := by
  intro l
  induction l with
  | nil => exact fun _ => ⟨[], rfl⟩
  | cons a xs ih =>
    intro h
    obtain ⟨y, hy⟩ := h a (by simp)
    obtain ⟨ys, hys⟩ := ih (fun x hx => h x (by simp [hx]))
    exact ⟨y :: ys, by unfold mapO; rw [hy, hys]⟩

end MapOLemmas

section WrapLemmas

theorem wrap_lt (a : ℤ) (m : ℕ) (hm : 0 < m) : wrap a m < m := by
  unfold wrap
  have hne : (m : ℤ) ≠ 0 := by exact_mod_cast hm.ne'
  have h1 : 0 ≤ a.emod m := Int.emod_nonneg a hne
  have h2 : a.emod m < (m : ℤ) := Int.emod_lt_of_pos a (by exact_mod_cast hm)
  omega

theorem wrap_neg_one (m : ℕ) (hm : 1 ≤ m) : wrap (-1) m = m - 1 := by
  unfold wrap
  have h4 : (-1 : ℤ).emod (m : ℤ) = (m : ℤ) - 1 := by
    have h1 := Int.add_mul_emod_self_left (-1) ((m : ℤ)) 1
    have h2 : ((-1 : ℤ) + (m : ℤ) * 1) = (m : ℤ) - 1 := by ring
    have h3 : ((m : ℤ) - 1) % (m : ℤ) = (m : ℤ) - 1 := by
      apply Int.emod_eq_of_lt <;> omega
    rw [h2, h3] at h1
    exact h1.symm
  omega

end WrapLemmas

section CodecClaims

theorem encode_some_eq (x y : ℕ) :
    encode_partner (some (x, y)) = x % 65536 * 65536 + y % 65536 := by
  show ((x <<< 16) % 4294967296) ||| (y &&& 0xFFFF) = _
  rw [shiftLeft16_mod, and_FFFF, lor_split _ _ (Nat.mod_lt _ (by norm_num))]

/-- C3: the partner codec round-trips on every coordinate pair with both
components at most 65534, encodes none as the sentinel 0xFFFFFFFF, decodes the
sentinel back to none, and maps the pair (65535, 65535) to the sentinel, so
that pair aliases to no entanglement. -/
theorem codec_roundtrip_c3 :
    (∀ x y : ℕ, x ≤ 65534 → y ≤ 65534 →
      decode_partner (encode_partner (some (x, y))) = some (x, y)) ∧
    encode_partner none = 0xFFFFFFFF ∧
    decode_partner 0xFFFFFFFF = none ∧
    encode_partner (some (65535, 65535)) = 0xFFFFFFFF := by
  refine ⟨?_, rfl, by rfl, ?_⟩
  · intro x y hx hy
    have hx16 : x % 65536 = x := Nat.mod_eq_of_lt (by omega)
    have hy16 : y % 65536 = y := Nat.mod_eq_of_lt (by omega)
    rw [encode_some_eq, hx16, hy16]
    unfold decode_partner
    rw [if_neg (by unfold NO_ENTANGLEMENT; omega)]
    have h16 : (2 : ℕ) ^ 16 = 65536 := by norm_num
    have hdiv : (x * 65536 + y) >>> 16 = x := by
      rw [Nat.shiftRight_eq_div_pow, h16]
      omega
    have hmod : (x * 65536 + y) &&& 0xFFFF = y := by
      rw [and_FFFF]
      omega
    rw [hdiv, hmod]
  · rw [encode_some_eq]

theorem codec_roundtrip_c3_witness :
    decode_partner (encode_partner (some (500, 300))) = some (500, 300) :=
  codec_roundtrip_c3.1 500 300 (by decide) (by decide)

/-- C10: encode_partner does not mask the x coordinate before the 16-bit left
shift, so any u32 coordinate pair aliases to its componentwise residues mod
65536: the encoding equals that of the reduced pair, and whenever the encoding
is not the sentinel it decodes to the reduced coordinates rather than the
originals. -/
theorem encode_alias_c10 :
    (∀ x y : ℕ, encode_partner (some (x, y)) = encode_partner (some (x % 65536, y % 65536))) ∧
    (∀ x y : ℕ, encode_partner (some (x, y)) ≠ NO_ENTANGLEMENT →
      decode_partner (encode_partner (some (x, y))) = some (x % 65536, y % 65536)) := by
  constructor
  · intro x y
    rw [encode_some_eq, encode_some_eq]
    omega
  · intro x y hne
    rw [encode_some_eq] at hne ⊢
    unfold decode_partner
    rw [if_neg hne]
    have h16 : (2 : ℕ) ^ 16 = 65536 := by norm_num
    have hdiv : (x % 65536 * 65536 + y % 65536) >>> 16 = x % 65536 := by
      rw [Nat.shiftRight_eq_div_pow, h16]
      omega
    have hmod : (x % 65536 * 65536 + y % 65536) &&& 0xFFFF = y % 65536 := by
      rw [and_FFFF]
      omega
    rw [hdiv, hmod]

theorem encode_alias_c10_witness :
    encode_partner (some (65536, 0)) = encode_partner (some (65536 % 65536, 0 % 65536)) ∧
    decode_partner (encode_partner (some (65536, 0))) = some (65536 % 65536, 0 % 65536) :=
  ⟨encode_alias_c10.1 65536 0,
   encode_alias_c10.2 65536 0 (by rw [encode_some_eq]; decide)⟩

end CodecClaims

section UpdateRuleLemmas

theorem sync_step_length (rf : ℚ) (s : ℕ → ℚ) (p q : List ℚ) :
    (sync_step rf s p q).length = 4 := by
  simp [sync_step]

theorem sync_step_nonneg (rf : ℚ) (s : ℕ → ℚ) (p q : List ℚ)
    (hp : ∀ x ∈ p, 0 ≤ x) (hq : ∀ x ∈ q, 0 ≤ x) :
    ∀ x ∈ sync_step rf s p q, 0 ≤ x := by
  intro x hx
  simp only [sync_step, List.mem_map, List.mem_range] at hx
  obtain ⟨i, hi, rfl⟩ := hx
  have h1 := getD_nonneg p hp i
  have h2 := getD_nonneg q hq i
  split <;> linarith

theorem sync_step_sum_ge (rf : ℚ) (s : ℕ → ℚ) (p q : List ℚ) (hp4 : p.length = 4)
    (hp : ∀ x ∈ p, 0 ≤ x) (hq : ∀ x ∈ q, 0 ≤ x) :
    p.sum / 2 ≤ (sync_step rf s p q).sum := by
  have hterm : ∀ i : ℕ, p.getD i 0 / 2 ≤
      (if s i < rf then (p.getD i 0 + q.getD i 0) / 2 else p.getD i 0) := by
    intro i
    have h1 := getD_nonneg p hp i
    have h2 := getD_nonneg q hq i
    split <;> linarith
  unfold sync_step
  rw [sum_range4]
  have hs := sum_getD4 p hp4
  have t0 := hterm 0
  have t1 := hterm 1
  have t2 := hterm 2
  have t3 := hterm 3
  linarith

theorem influence_nonneg (nbrs : List CellState)
    (hn : ∀ c ∈ nbrs, ∀ x ∈ c.state_probabilities, 0 ≤ x) :
    ∀ x ∈ influence_of nbrs, 0 ≤ x := by
  intro x hx
  simp only [influence_of, List.mem_map, List.mem_range] at hx
  obtain ⟨i, hi, rfl⟩ := hx
  apply List.sum_nonneg
  intro y hy
  simp only [List.mem_map] at hy
  obtain ⟨c, hc, rfl⟩ := hy
  exact getD_nonneg _ (hn c hc) i

theorem normalize_influence_nonneg (l : List ℚ) (hl : ∀ x ∈ l, 0 ≤ x) :
    ∀ x ∈ normalize_influence l, 0 ≤ x := by
  intro x hx
  unfold normalize_influence at hx
  split at hx
  · rename_i hpos
    simp only [List.mem_map] at hx
    obtain ⟨y, hy, rfl⟩ := hx
    exact div_nonneg (hl y hy) hpos.le
  · exact hl x hx

theorem blend_jitter_length (rf : ℚ) (jit : ℕ → ℚ) (p influ : List ℚ) :
    (blend_jitter rf jit p influ).length = 4 := by
  simp [blend_jitter]

theorem blend_jitter_nonneg (rf : ℚ) (hrf : 0 ≤ rf) (jit : ℕ → ℚ) (hj : ∀ k, 0 ≤ jit k)
    (p influ : List ℚ) (hp : ∀ x ∈ p, 0 ≤ x) (hi : ∀ x ∈ influ, 0 ≤ x) :
    ∀ x ∈ blend_jitter rf jit p influ, 0 ≤ x := by
  intro x hx
  simp only [blend_jitter, List.mem_map, List.mem_range] at hx
  obtain ⟨i, hii, rfl⟩ := hx
  have h1 := getD_nonneg p hp i
  have h2 := getD_nonneg influ hi i
  have h3 := mul_nonneg (hj i) hrf
  linarith

theorem blend_jitter_sum_ge (rf : ℚ) (hrf : 0 ≤ rf) (jit : ℕ → ℚ) (hj : ∀ k, 0 ≤ jit k)
    (p influ : List ℚ) (hp4 : p.length = 4) (hp : ∀ x ∈ p, 0 ≤ x)
    (hi : ∀ x ∈ influ, 0 ≤ x) :
    p.sum / 2 ≤ (blend_jitter rf jit p influ).sum := by
  have hterm : ∀ i : ℕ, p.getD i 0 / 2 ≤
      (p.getD i 0 + influ.getD i 0) / 2 + jit i * rf := by
    intro i
    have h1 := getD_nonneg influ hi i
    have h2 := mul_nonneg (hj i) hrf
    linarith
  unfold blend_jitter
  rw [sum_range4]
  have hs := sum_getD4 p hp4
  have t0 := hterm 0
  have t1 := hterm 1
  have t2 := hterm 2
  have t3 := hterm 3
  linarith

theorem renormalize_length (l : List ℚ) : (renormalize l).length = l.length := by
  simp [renormalize]

theorem renormalize_sum_one (l : List ℚ) (hl : 0 < l.sum) : (renormalize l).sum = 1 := by
  unfold renormalize
  rw [sum_map_div]
  exact div_self hl.ne'

theorem renormalize_nonneg (l : List ℚ) (hl : ∀ x ∈ l, 0 ≤ x) (hs : 0 ≤ l.sum) :
    ∀ x ∈ renormalize l, 0 ≤ x := by
  intro x hx
  simp only [renormalize, List.mem_map] at hx
  obtain ⟨y, hy, rfl⟩ := hx
  exact div_nonneg (hl y hy) hs

theorem pre_renorm_sum_pos (rf : ℚ) (hrf : 0 ≤ rf) (d : CellDraws)
    (hj : ∀ k, 0 ≤ d.jit k) (p : List ℚ) (nbrs : List CellState)
    (hp4 : p.length = 4) (hp : ∀ x ∈ p, 0 ≤ x) (hps : 0 < p.sum)
    (hn : ∀ c ∈ nbrs, ∀ x ∈ c.state_probabilities, 0 ≤ x) :
    0 < (pre_renorm rf d p nbrs).sum := by
  have hinf : ∀ x ∈ normalize_influence (influence_of nbrs), 0 ≤ x :=
    normalize_influence_nonneg _ (influence_nonneg nbrs hn)
  have hge := blend_jitter_sum_ge rf hrf d.jit hj p
    (normalize_influence (influence_of nbrs)) hp4 hp hinf
  unfold pre_renorm
  linarith

theorem finish_WF (rf : ℚ) (hrf : 0 ≤ rf) (d : CellDraws) (hj : ∀ k, 0 ≤ d.jit k)
    (p : List ℚ) (nbrs : List CellState) (cur : CellState)
    (hp4 : p.length = 4) (hp : ∀ x ∈ p, 0 ≤ x) (hps : 0 < p.sum)
    (hn : ∀ c ∈ nbrs, ∀ x ∈ c.state_probabilities, 0 ≤ x) :
    ProbWF (finish rf d p nbrs cur) := by
  have hinf : ∀ x ∈ normalize_influence (influence_of nbrs), 0 ≤ x :=
    normalize_influence_nonneg _ (influence_nonneg nbrs hn)
  have hbn : ∀ x ∈ pre_renorm rf d p nbrs, 0 ≤ x :=
    blend_jitter_nonneg rf hrf d.jit hj p _ hp hinf
  have hpos := pre_renorm_sum_pos rf hrf d hj p nbrs hp4 hp hps hn
  refine ⟨?_, ?_, ?_⟩
  · show (renormalize (pre_renorm rf d p nbrs)).length = 4
    rw [renormalize_length]
    exact blend_jitter_length _ _ _ _
  · exact renormalize_nonneg _ hbn hpos.le
  · exact renormalize_sum_one _ hpos

theorem lookup2_mem (grid : List (List CellState)) (r c : ℕ) (cell : CellState)
    (h : lookup2 grid r c = some cell) : ∃ row ∈ grid, cell ∈ row := by
  unfold lookup2 at h
  cases hr : grid.get? r with
  | none => rw [hr] at h; simp at h
  | some row =>
    rw [hr] at h
    simp at h
    exact ⟨row, List.get?_mem hr, List.get?_mem (by rw [List.get?_eq_getElem?]; exact h)⟩

theorem calc_preserves_WF (rf : ℚ) (hrf : 0 ≤ rf) (d : CellDraws)
    (hj : ∀ k, 0 ≤ d.jit k) (grid : List (List CellState))
    (hgrid : ∀ row ∈ grid, ∀ c ∈ row, ∀ x ∈ c.state_probabilities, 0 ≤ x)
    (cur : CellState) (hcur : ProbWF cur) (nbrs : List CellState)
    (hn : ∀ c ∈ nbrs, ∀ x ∈ c.state_probabilities, 0 ≤ x)
    (out : CellState) (h : calculate_new_state rf d grid cur nbrs = some out) :
    ProbWF out := by
  obtain ⟨hc4, hcn, hcs⟩ := hcur
  unfold calculate_new_state at h
  split at h
  · have hout : finish rf d cur.state_probabilities nbrs cur = out := by
      injection h
    rw [← hout]
    exact finish_WF rf hrf d hj _ nbrs cur hc4 hcn (by rw [hcs]; norm_num) hn
  · rename_i px py hpq
    split at h
    · exact absurd h (by simp)
    · rename_i q hq
      have hout : finish rf d
          (sync_step rf d.sync cur.state_probabilities q.state_probabilities) nbrs cur = out := by
        injection h
      rw [← hout]
      obtain ⟨qrow, hqr, hqm⟩ := lookup2_mem grid px py q hq
      have hqn : ∀ x ∈ q.state_probabilities, 0 ≤ x := hgrid qrow hqr q hqm
      apply finish_WF rf hrf d hj _ nbrs cur (sync_step_length _ _ _ _)
        (sync_step_nonneg _ _ _ _ hcn hqn) ?_ hn
      have := sync_step_sum_ge rf d.sync cur.state_probabilities q.state_probabilities
        hc4 hcn hqn
      rw [hcs] at this
      linarith

end UpdateRuleLemmas

section GridLevelLemmas

theorem grid_nonneg_of_WF (g : Grid) (hg : Grid.WF g) :
    ∀ row ∈ g.cells, ∀ c ∈ row, ∀ x ∈ c.state_probabilities, 0 ≤ x := by
  intro row hr c hc
  exact (hg.2.2 row hr c hc).2.1

theorem get_neighbors_sub (grid : List (List CellState)) (row col w h : ℕ)
    (nbrs : List CellState) (hn : get_neighbors grid row col w h = some nbrs) :
    ∀ c ∈ nbrs, ∃ r ∈ grid, c ∈ r := by
  intro c hc
  obtain ⟨rc, _, hrc⟩ := mapO_mem _ _ _ hn c hc
  exact lookup2_mem grid rc.1 rc.2 c hrc

theorem cell_step_WF (rf : ℚ) (hrf : 0 ≤ rf) (dr : ℕ → ℕ → CellDraws)
    (hd : ∀ i j k, 0 ≤ (dr i j).jit k) (g : Grid) (hg : Grid.WF g) (i j : ℕ)
    (c : CellState) (h : cell_step rf dr g i j = some c) : ProbWF c := by
  unfold cell_step at h
  split at h
  · exact absurd h (by simp)
  · rename_i nbrs hnb
    split at h
    · exact absurd h (by simp)
    · rename_i cur hcur
      obtain ⟨crow, hcr, hcm⟩ := lookup2_mem g.cells i j cur hcur
      have hnn : ∀ c2 ∈ nbrs, ∀ x ∈ c2.state_probabilities, 0 ≤ x := by
        intro c2 hc2
        obtain ⟨r2, hr2, hm2⟩ := get_neighbors_sub g.cells i j g.width g.height nbrs hnb c2 hc2
        exact grid_nonneg_of_WF g hg r2 hr2 c2 hm2
      exact calc_preserves_WF rf hrf (dr i j) (hd i j) g.cells (grid_nonneg_of_WF g hg)
        cur (hg.2.2 crow hcr cur hcm) nbrs hnn c h

theorem update_cells_shape (rf : ℚ) (dr : ℕ → ℕ → CellDraws) (g g2 : Grid)
    (h : Grid.update rf dr g = some g2) :
    g2.width = g.width ∧ g2.height = g.height ∧ g2.cells.length = g.cells.length ∧
      (∀ row ∈ g2.cells, row.length = g.width) ∧
      ∀ row ∈ g2.cells, ∀ c ∈ row, ∃ i j, cell_step rf dr g i j = some c := by
  unfold Grid.update at h
  cases hm : mapO (fun i => mapO (fun j => cell_step rf dr g i j) (List.range g.width))
      (List.range g.cells.length) with
  | none => rw [hm] at h; simp at h
  | some cells2 =>
    rw [hm] at h
    simp at h
    have hlen := mapO_length _ _ _ hm
    rw [← h]
    refine ⟨rfl, rfl, by simpa using hlen, ?_, ?_⟩
    · intro row hrow
      obtain ⟨i, _, hrow2⟩ := mapO_mem _ _ _ hm row hrow
      simpa using mapO_length _ _ _ hrow2
    · intro row hrow c hc
      obtain ⟨i, _, hrow2⟩ := mapO_mem _ _ _ hm row hrow
      obtain ⟨j, _, hc2⟩ := mapO_mem _ _ _ hrow2 c hc
      exact ⟨i, j, hc2⟩

theorem update_preserves_WF (rf : ℚ) (hrf : 0 ≤ rf) (dr : ℕ → ℕ → CellDraws)
    (hd : ∀ i j k, 0 ≤ (dr i j).jit k) (g g2 : Grid) (hg : Grid.WF g)
    (h : Grid.update rf dr g = some g2) : Grid.WF g2 := by
  obtain ⟨hw, hh, hlen, hrows, hcells⟩ := update_cells_shape rf dr g g2 h
  refine ⟨?_, ?_, ?_⟩
  · rw [hlen, hh, hg.1]
  · intro row hrow
    rw [hw]
    exact hrows row hrow
  · intro row hrow c hc
    obtain ⟨i, j, hstep⟩ := hcells row hrow c hc
    exact cell_step_WF rf hrf dr hd g hg i j c hstep

theorem ticks_preserves_WF (rf : ℚ) (hrf : 0 ≤ rf) (draws : ℕ → ℕ → ℕ → CellDraws)
    (hd : ∀ t i j k, 0 ≤ (draws t i j).jit k) :
    ∀ (n : ℕ) (g g2 : Grid), Grid.WF g → Grid.ticks rf draws n g = some g2 → Grid.WF g2 := by
  intro n
  induction n with
  | zero =>
    intro g g2 hg h
    injection h with h
    rw [← h]
    exact hg
  | succ m ih =>
    intro g g2 hg h
    unfold Grid.ticks at h
    cases hu : Grid.update rf (draws m) g with
    | none => rw [hu] at h; simp at h
    | some gmid =>
      rw [hu] at h
      simp at h
      exact ih gmid g2 (update_preserves_WF rf hrf (draws m) (hd m) g gmid hg hu) h

end GridLevelLemmas

section ClaimC1

/-- C1: starting from any well-formed grid (four non-negative components of
total mass one per cell), with a non-negative randomness factor and
non-negative jitter draws (rand gen draws lie in [0,1)), any number of
whole-grid ticks that completes yields a grid in which every cell has four
non-negative probability components summing to 1, in particular within the
1e-3 tolerance. -/
theorem prob_invariant_c1 (rf : ℚ) (hrf : 0 ≤ rf) (draws : ℕ → ℕ → ℕ → CellDraws)
    (hd : ∀ t i j k, 0 ≤ (draws t i j).jit k) (g : Grid) (hg : Grid.WF g)
    (n : ℕ) (g2 : Grid) (h : Grid.ticks rf draws n g = some g2) :
    ∀ row ∈ g2.cells, ∀ c ∈ row,
      c.state_probabilities.length = 4 ∧
      (∀ p ∈ c.state_probabilities, 0 ≤ p) ∧
      c.state_probabilities.sum = 1 ∧
      |c.state_probabilities.sum - 1| ≤ 1 / 1000 := by
  have hwf := ticks_preserves_WF rf hrf draws hd n g g2 hg h
  intro row hrow c hc
  obtain ⟨h4, hn, hs⟩ := hwf.2.2 row hrow c hc
  exact ⟨h4, hn, hs, by rw [hs]; norm_num⟩

end ClaimC1

section ClaimC8

/-- C8: for every input cell, the update rule carries the entangled-partner
link of the pre-tick state forward unchanged into the returned state, for all
partner values and all random draws; the rule never reassigns entanglement. -/
theorem partner_carried_c8 (rf : ℚ) (d : CellDraws) (grid : List (List CellState))
    (cur : CellState) (nbrs : List CellState) (out : CellState)
    (h : calculate_new_state rf d grid cur nbrs = some out) :
    out.entangled_partner = cur.entangled_partner := by
  unfold calculate_new_state at h
  split at h
  · have hout : finish rf d cur.state_probabilities nbrs cur = out := by injection h
    rw [← hout]
    rfl
  · split at h
    · exact absurd h (by simp)
    · rename_i q hq
      have hout : finish rf d
          (sync_step rf d.sync cur.state_probabilities q.state_probabilities) nbrs cur = out := by
        injection h
      rw [← hout]
      rfl
end ClaimC8

section UniformEvaluation

theorem mapO_nil {α β : Type} (f : α → Option β) : mapO f [] = some [] := rfl

theorem mapO_cons_some {α β : Type} {f : α → Option β} {x : α} {xs : List α}
    {y : β} {ys : List β} (h1 : f x = some y) (h2 : mapO f xs = some ys) :
    mapO f (x :: xs) = some (y :: ys) := by
  unfold mapO
  rw [h1, h2]

theorem calc_no_partner (rf : ℚ) (d : CellDraws) (grid : List (List CellState))
    (cur : CellState) (nbrs : List CellState) (hp : cur.entangled_partner = none) :
    calculate_new_state rf d grid cur nbrs =
      some (finish rf d cur.state_probabilities nbrs cur) := by
  unfold calculate_new_state
  rw [hp]

theorem calc_partner_found (rf : ℚ) (d : CellDraws) (grid : List (List CellState))
    (cur : CellState) (nbrs : List CellState) (px py : ℕ) (q : CellState)
    (hp : cur.entangled_partner = some (px, py)) (hq : lookup2 grid px py = some q) :
    calculate_new_state rf d grid cur nbrs =
      some (finish rf d
        (sync_step rf d.sync cur.state_probabilities q.state_probabilities) nbrs cur) := by
  unfold calculate_new_state
  rw [hp]
  simp only [hq]

theorem calc_partner_lost (rf : ℚ) (d : CellDraws) (grid : List (List CellState))
    (cur : CellState) (nbrs : List CellState) (px py : ℕ)
    (hp : cur.entangled_partner = some (px, py)) (hq : lookup2 grid px py = none) :
    calculate_new_state rf d grid cur nbrs = none := by
  unfold calculate_new_state
  rw [hp]
  simp only [hq]

theorem cell_step_eval (rf : ℚ) (draws : ℕ → ℕ → CellDraws) (g : Grid) (i j : ℕ)
    (nbrs : List CellState) (cur : CellState)
    (hnb : get_neighbors g.cells i j g.width g.height = some nbrs)
    (hcur : lookup2 g.cells i j = some cur) :
    cell_step rf draws g i j = calculate_new_state rf (draws i j) g.cells cur nbrs := by
  unfold cell_step
  rw [hnb]
  simp only [hcur]

theorem influence_uniform8 : influence_of (List.replicate 8 uCell) = [2, 2, 2, 2] := by
  unfold influence_of
  rw [range4_eq]
  simp [uCell, List.sum_replicate]
  norm_num

theorem normalize_uniform : normalize_influence [(2 : ℚ), 2, 2, 2] = [1/4, 1/4, 1/4, 1/4] := by
  unfold normalize_influence
  norm_num

theorem pre_renorm_uniform (d : CellDraws) :
    pre_renorm 0 d [(1 : ℚ)/4, 1/4, 1/4, 1/4] (List.replicate 8 uCell) =
      [(1 : ℚ)/4, 1/4, 1/4, 1/4] := by
  unfold pre_renorm
  rw [influence_uniform8, normalize_uniform]
  unfold blend_jitter
  rw [range4_eq]
  norm_num

theorem renormalize_uniform :
    renormalize [(1 : ℚ)/4, 1/4, 1/4, 1/4] = [(1 : ℚ)/4, 1/4, 1/4, 1/4] := by
  unfold renormalize
  norm_num

theorem calc_uniform (d : CellDraws) (grid : List (List CellState)) :
    calculate_new_state 0 d grid uCell (List.replicate 8 uCell) = some uCell := by
  rw [calc_no_partner 0 d grid uCell (List.replicate 8 uCell) rfl]
  unfold finish
  rw [show uCell.state_probabilities = [(1 : ℚ)/4, 1/4, 1/4, 1/4] from rfl,
    pre_renorm_uniform, renormalize_uniform]
  rfl

theorem uniform3_cell_step (draws : ℕ → ℕ → CellDraws) (i j : ℕ) (hi : i < 3) (hj : j < 3) :
    cell_step 0 draws uniformGrid3 i j = some uCell := by
  have hnb : get_neighbors uniformGrid3.cells i j uniformGrid3.width uniformGrid3.height =
      some (List.replicate 8 uCell) := by
    interval_cases i <;> interval_cases j <;> rfl
  have hcur : lookup2 uniformGrid3.cells i j = some uCell := by
    interval_cases i <;> interval_cases j <;> rfl
  rw [cell_step_eval 0 draws uniformGrid3 i j (List.replicate 8 uCell) uCell hnb hcur]
  exact calc_uniform _ _

/-- C7: on the 3 by 3 grid whose every cell holds the uniform distribution
[1/4, 1/4, 1/4, 1/4] with no entangled partner, with the randomness factor
forced to 0 (so every stochastic perturbation contributes zero), one tick
returns the grid unchanged, for every draw oracle: the uniform grid is a fixed
point of the update rule under zero noise. -/
theorem uniform_fixed_point_c7 (draws : ℕ → ℕ → CellDraws) :
    Grid.update 0 draws uniformGrid3 = some uniformGrid3 := by
  have hrow : ∀ i, i < 3 →
      mapO (fun j => cell_step 0 draws uniformGrid3 i j) (List.range uniformGrid3.width) =
        some (List.replicate 3 uCell) := by
    intro i hi
    rw [show List.range uniformGrid3.width = [0, 1, 2] from rfl]
    exact mapO_cons_some (uniform3_cell_step draws i 0 hi (by norm_num))
      (mapO_cons_some (uniform3_cell_step draws i 1 hi (by norm_num))
        (mapO_cons_some (uniform3_cell_step draws i 2 hi (by norm_num)) (mapO_nil _)))
  have houter : mapO
      (fun i => mapO (fun j => cell_step 0 draws uniformGrid3 i j) (List.range uniformGrid3.width))
      [0, 1, 2] =
      some [List.replicate 3 uCell, List.replicate 3 uCell, List.replicate 3 uCell] :=
    mapO_cons_some (hrow 0 (by norm_num))
      (mapO_cons_some (hrow 1 (by norm_num))
        (mapO_cons_some (hrow 2 (by norm_num)) (mapO_nil _)))
  unfold Grid.update
  rw [show List.range uniformGrid3.cells.length = [0, 1, 2] from rfl, houter]
  rfl

theorem uniform1_update (draws : ℕ → ℕ → CellDraws) :
    Grid.update 0 draws uniformGrid1 = some uniformGrid1 := by
  have hcell : cell_step 0 draws uniformGrid1 0 0 = some uCell := by
    rw [cell_step_eval 0 draws uniformGrid1 0 0 (List.replicate 8 uCell) uCell rfl rfl]
    exact calc_uniform _ _
  have houter : mapO
      (fun i => mapO (fun j => cell_step 0 draws uniformGrid1 i j) (List.range uniformGrid1.width))
      [0] = some [[uCell]] :=
    mapO_cons_some (mapO_cons_some hcell (mapO_nil _)) (mapO_nil _)
  unfold Grid.update
  rw [show List.range uniformGrid1.cells.length = [0] from rfl, houter]
  rfl

theorem uniform1_tick :
    Grid.ticks 0 (fun _ _ _ => zeroDraws) 1 uniformGrid1 = some uniformGrid1 := by
  unfold Grid.ticks
  rw [uniform1_update]
  rfl

theorem uCell_ProbWF : ProbWF uCell := by
  refine ⟨rfl, ?_, ?_⟩
  · intro p hp
    simp [uCell] at hp
    rw [hp]
    norm_num
  · show ([(1 : ℚ)/4, 1/4, 1/4, 1/4]).sum = 1
    norm_num

theorem uniformGrid1_WF : Grid.WF uniformGrid1 := by
  refine ⟨rfl, ?_, ?_⟩
  · intro row hrow
    simp [uniformGrid1] at hrow
    rw [hrow]
    rfl
  · intro row hrow c hc
    simp [uniformGrid1] at hrow
    rw [hrow] at hc
    simp at hc
    rw [hc]
    exact uCell_ProbWF

end UniformEvaluation

section ClaimC1Witness

theorem prob_invariant_c1_witness :
    uCell.state_probabilities.length = 4 ∧
    uCell.state_probabilities.sum = 1 ∧
    |uCell.state_probabilities.sum - 1| ≤ 1 / 1000 :=
  have h := prob_invariant_c1 0 (le_refl 0) (fun _ _ _ => zeroDraws)
    (fun _ _ _ _ => le_refl 0) uniformGrid1 uniformGrid1_WF 1 uniformGrid1 uniform1_tick
    [uCell] (List.mem_cons_self _ _) uCell (List.mem_cons_self _ _)
  ⟨h.1, h.2.2.1, h.2.2.2⟩

end ClaimC1Witness

section ClaimC2

/-- C2: when one tick completes on a grid, the cell written at every row index
i and column index j equals the update rule applied to the pre-tick snapshot:
the neighbors, the current cell and (inside calculate_new_state) the optional
partner are all read from the cells of the input grid g, never from the output
grid, so no cell of the new grid depends on another cell of the new grid. -/
theorem snapshot_step_c2 (rf : ℚ) (draws : ℕ → ℕ → CellDraws) (g g2 : Grid)
    (hu : Grid.update rf draws g = some g2) (i j : ℕ)
    (hi : i < g.cells.length) (hj : j < g.width) :
    ∃ row, g2.cells.get? i = some row ∧
      row.get? j = cell_step rf draws g i j ∧
      cell_step rf draws g i j =
        (match get_neighbors g.cells i j g.width g.height with
          | none => none
          | some nbrs =>
            match lookup2 g.cells i j with
            | none => none
            | some cur => calculate_new_state rf (draws i j) g.cells cur nbrs) := by
  unfold Grid.update at hu
  cases hm : mapO (fun i => mapO (fun j => cell_step rf draws g i j) (List.range g.width))
      (List.range g.cells.length) with
  | none => rw [hm] at hu; simp at hu
  | some cells2 =>
    rw [hm] at hu
    simp at hu
    have hlen : cells2.length = g.cells.length := by
      simpa using mapO_length _ _ _ hm
    have houtget := mapO_get _ _ _ hm i i (List.get?_range hi)
    cases hrow : cells2.get? i with
    | none =>
      rw [List.get?_eq_none] at hrow
      omega
    | some row =>
      rw [hrow] at houtget
      have hinner : mapO (fun j => cell_step rf draws g i j) (List.range g.width) = some row :=
        houtget.symm
      have hget := mapO_get _ _ _ hinner j j (List.get?_range hj)
      refine ⟨row, ?_, hget, rfl⟩
      rw [← hu]
      exact hrow

end ClaimC2

section ClaimC2Witness

theorem snapshot_step_c2_witness :
    ∃ row, uniformGrid1.cells.get? 0 = some row ∧
      row.get? 0 = cell_step 0 (fun _ _ => zeroDraws) uniformGrid1 0 0 ∧
      cell_step 0 (fun _ _ => zeroDraws) uniformGrid1 0 0 =
        (match get_neighbors uniformGrid1.cells 0 0 uniformGrid1.width uniformGrid1.height with
          | none => none
          | some nbrs =>
            match lookup2 uniformGrid1.cells 0 0 with
            | none => none
            | some cur =>
              calculate_new_state 0 ((fun _ _ => zeroDraws) 0 0) uniformGrid1.cells cur nbrs) :=
  snapshot_step_c2 0 (fun _ _ => zeroDraws) uniformGrid1 uniformGrid1
    (uniform1_update (fun _ _ => zeroDraws)) 0 0 (by decide) (by decide)

end ClaimC2Witness

section ClaimC8Witness

theorem partner_carried_c8_witness : uCell.entangled_partner = uCell.entangled_partner :=
  partner_carried_c8 0 zeroDraws [] uCell (List.replicate 8 uCell) uCell
    (calc_uniform zeroDraws [])

end ClaimC8Witness

section NeighborBoundsLemmas

theorem neighbor_coords_bounds (w h row col : ℕ) (hw : 0 < w) (hh : 0 < h) :
    ∀ rc ∈ neighbor_coords row col w h, rc.1 < h ∧ rc.2 < w := by
  intro rc hrc
  simp only [neighbor_coords, List.mem_map] at hrc
  obtain ⟨d, hd, rfl⟩ := hrc
  exact ⟨wrap_lt _ _ hh, wrap_lt _ _ hw⟩

theorem neighbor_coords_length (w h row col : ℕ) :
    (neighbor_coords row col w h).length = 8 := by
  simp [neighbor_coords, neighbor_offsets]

theorem lookup2_total (grid : List (List CellState)) (w h r c : ℕ)
    (hlen : grid.length = h) (hrows : ∀ row ∈ grid, row.length = w)
    (hr : r < h) (hc : c < w) : ∃ cell, lookup2 grid r c = some cell := by
  unfold lookup2
  cases hg : grid.get? r with
  | none =>
    rw [List.get?_eq_none] at hg
    omega
  | some row =>
    have hrw : row.length = w := hrows row (List.get?_mem hg)
    cases hcell : row.get? c with
    | none =>
      rw [List.get?_eq_none] at hcell
      omega
    | some cell =>
      refine ⟨cell, ?_⟩
      show row.get? c = some cell
      exact hcell

theorem get_neighbors_total (grid : List (List CellState)) (w h row col : ℕ)
    (hlen : grid.length = h) (hrows : ∀ r ∈ grid, r.length = w)
    (hw : 0 < w) (hh : 0 < h) :
    ∃ ns, get_neighbors grid row col w h = some ns ∧ ns.length = 8 := by
  obtain ⟨ns, hns⟩ := mapO_total _ (neighbor_coords row col w h) (fun rc hrc => by
    obtain ⟨h1, h2⟩ := neighbor_coords_bounds w h row col hw hh rc hrc
    exact lookup2_total grid w h rc.1 rc.2 hlen hrows h1 h2)
  exact ⟨ns, hns, (mapO_length _ _ _ hns).trans (neighbor_coords_length w h row col)⟩

end NeighborBoundsLemmas

section ClaimC5

/-- C5 amended: neighbor lookups do reduce both coordinates modulo the grid
dimensions before dereferencing and never index out of bounds on a grid whose
collection matches its dimensions; but the partner coordinate is dereferenced
raw as grid[partner_x][partner_y] with no modulo reduction, so the update rule
faults exactly when a cell carries a partner (px, py) for which grid[px][py]
is out of range. -/
theorem bounds_c5_amended :
    (∀ w h row col : ℕ, 0 < w → 0 < h →
      ∀ rc ∈ neighbor_coords row col w h, rc.1 < h ∧ rc.2 < w) ∧
    (∀ (grid : List (List CellState)) (w h : ℕ), grid.length = h →
      (∀ r ∈ grid, r.length = w) → 0 < w → 0 < h → ∀ row col : ℕ,
      ∃ ns, get_neighbors grid row col w h = some ns ∧ ns.length = 8) ∧
    (∀ (rf : ℚ) (d : CellDraws) (grid : List (List CellState)) (cur : CellState)
      (nbrs : List CellState),
      calculate_new_state rf d grid cur nbrs = none ↔
        ∃ px py : ℕ, cur.entangled_partner = some (px, py) ∧ lookup2 grid px py = none) := by
  refine ⟨fun w h row col hw hh => neighbor_coords_bounds w h row col hw hh,
    fun grid w h hlen hrows hw hh row col =>
      get_neighbors_total grid w h row col hlen hrows hw hh, ?_⟩
  intro rf d grid cur nbrs
  constructor
  · intro hnone
    unfold calculate_new_state at hnone
    split at hnone
    · simp at hnone
    · rename_i px py hp
      split at hnone
      · rename_i hq
        exact ⟨px, py, hp, hq⟩
      · simp at hnone
  · rintro ⟨px, py, hp, hq⟩
    exact calc_partner_lost rf d grid cur nbrs px py hp hq

theorem bounds_c5_amended_witness :
    ((0, 1) : ℕ × ℕ).1 < 1 ∧ ((0, 1) : ℕ × ℕ).2 < 2 :=
  bounds_c5_amended.1 2 1 0 0 (by decide) (by decide) (0, 1) (by decide)

theorem badCell_probs_nonneg : ∀ p ∈ [(1 : ℚ), 0, 0, 0], 0 ≤ p := by
  intro p hp
  simp at hp
  rcases hp with h | h <;> rw [h] <;> norm_num

theorem badCellA_ProbWF : ProbWF badCellA := by
  refine ⟨rfl, badCell_probs_nonneg, ?_⟩
  show ([(1 : ℚ), 0, 0, 0]).sum = 1
  norm_num

theorem badCellB_ProbWF : ProbWF badCellB := by
  refine ⟨rfl, badCell_probs_nonneg, ?_⟩
  show ([(1 : ℚ), 0, 0, 0]).sum = 1
  norm_num

theorem badGrid_WF : Grid.WF badGrid := by
  refine ⟨rfl, ?_, ?_⟩
  · intro row hrow
    simp [badGrid] at hrow
    rw [hrow]
    rfl
  · intro row hrow c hc
    simp [badGrid] at hrow
    rw [hrow] at hc
    simp at hc
    rcases hc with h | h <;> rw [h]
    · exact badCellA_ProbWF
    · exact badCellB_ProbWF

/-- C5 counterexample: badGrid is a well-formed 2-wide, 1-high grid whose first
cell carries the partner coordinate (1, 0) — in bounds as an (x, y) pair, x
below the width and y below the height — yet one tick of the update faults
(returns none, the model of the Rust index-out-of-bounds panic), because the
partner coordinate is dereferenced as grid[1][0] without any modulo reduction
and the grid has a single row. -/
theorem partner_oob_c5_counterexample :
    Grid.WF badGrid ∧
    badCellA.entangled_partner = some (1, 0) ∧
    1 < badGrid.width ∧ 0 < badGrid.height ∧
    Grid.update (1/100) (fun _ _ => zeroDraws) badGrid = none :=
  ⟨badGrid_WF, rfl, by decide, by decide, by rfl⟩

end ClaimC5

section ClaimC6

theorem influence_zero8 : influence_of (List.replicate 8 zeroCell) = [0, 0, 0, 0] := by
  unfold influence_of
  rw [range4_eq]
  simp [zeroCell, List.sum_replicate]

theorem pre_renorm_zero :
    pre_renorm (1/100) zeroDraws zeroCell.state_probabilities (List.replicate 8 zeroCell) =
      [0, 0, 0, 0] := by
  unfold pre_renorm
  rw [influence_zero8]
  rw [show normalize_influence [(0 : ℚ), 0, 0, 0] = [0, 0, 0, 0] from by
    unfold normalize_influence
    norm_num]
  unfold blend_jitter
  rw [range4_eq]
  show [_, _, _, _] = _
  norm_num [zeroDraws, zeroCell]

theorem renormalize_zero : renormalize [(0 : ℚ), 0, 0, 0] = [0, 0, 0, 0] := by
  unfold renormalize
  norm_num

/-- C6 counterexample: on the all-zero cell with all-zero neighbors and no
partner, the vector reaching the final renormalization sums to zero, yet
calculate_new_state still returns a state rather than failing: the final
division is executed with a zero divisor (in the rational model the components
become 0; in the f64 code they would be NaN 0.0/0.0), so the zero sum is not
treated as a fatal invariant violation. -/
theorem unguarded_renorm_c6_counterexample :
    (pre_renorm (1/100) zeroDraws zeroCell.state_probabilities
      (List.replicate 8 zeroCell)).sum = 0 ∧
    calculate_new_state (1/100) zeroDraws [] zeroCell (List.replicate 8 zeroCell) =
      some zeroCell := by
  constructor
  · rw [pre_renorm_zero]
    norm_num
  · rw [calc_no_partner (1/100) zeroDraws [] zeroCell (List.replicate 8 zeroCell) rfl]
    unfold finish
    rw [pre_renorm_zero, renormalize_zero]
    rfl

/-- C6 amended: the neighbor-influence renormalization is guarded by a
positive-sum test and skips its division otherwise, and a positive sum makes
the normalized influence sum to one; the final renormalization has no guard
(see the counterexample), but on non-negative four-component inputs with
positive mass and non-negative draws its divisor is positive and the division
restores total mass one. -/
theorem renorm_guard_c6_amended :
    (∀ l : List ℚ, ¬ 0 < l.sum → normalize_influence l = l) ∧
    (∀ l : List ℚ, 0 < l.sum → (normalize_influence l).sum = 1) ∧
    (∀ (rf : ℚ) (d : CellDraws) (p : List ℚ) (nbrs : List CellState),
      0 ≤ rf → (∀ k, 0 ≤ d.jit k) → p.length = 4 → (∀ x ∈ p, 0 ≤ x) → 0 < p.sum →
      (∀ c ∈ nbrs, ∀ x ∈ c.state_probabilities, 0 ≤ x) →
      0 < (pre_renorm rf d p nbrs).sum ∧ (renormalize (pre_renorm rf d p nbrs)).sum = 1) := by
  refine ⟨?_, ?_, ?_⟩
  · intro l hl
    unfold normalize_influence
    rw [if_neg hl]
  · intro l hl
    unfold normalize_influence
    rw [if_pos hl, sum_map_div]
    exact div_self hl.ne'
  · intro rf d p nbrs hrf hj hp4 hp hps hn
    have hpos := pre_renorm_sum_pos rf hrf d hj p nbrs hp4 hp hps hn
    exact ⟨hpos, renormalize_sum_one _ hpos⟩

theorem renorm_guard_c6_amended_witness :
    normalize_influence [(0 : ℚ), 0, 0, 0] = [(0 : ℚ), 0, 0, 0] :=
  renorm_guard_c6_amended.1 [0, 0, 0, 0] (by simp)

end ClaimC6

section ClaimC9

/-- C9: on any grid with width and height at least 2, the neighbor lookup
visits exactly 8 coordinates (the Chebyshev-distance-1 ring with the center
skipped), the neighbor set of coordinate (0, 0) includes the opposite corner
cell at row height-1, column width-1, every produced coordinate is inside the
grid (no negative indexing survives the wraparound), and on a
dimension-consistent grid the lookup returns exactly 8 cells. -/
theorem toroidal_neighbors_c9 (w h : ℕ) (hw : 2 ≤ w) (hh : 2 ≤ h) :
    (∀ row col : ℕ, (neighbor_coords row col w h).length = 8) ∧
    (h - 1, w - 1) ∈ neighbor_coords 0 0 w h ∧
    (∀ row col : ℕ, ∀ rc ∈ neighbor_coords row col w h, rc.1 < h ∧ rc.2 < w) ∧
    (∀ grid : List (List CellState), grid.length = h → (∀ r ∈ grid, r.length = w) →
      ∀ row col : ℕ, ∃ ns, get_neighbors grid row col w h = some ns ∧ ns.length = 8) := by
  refine ⟨fun row col => neighbor_coords_length w h row col, ?_,
    fun row col => neighbor_coords_bounds w h row col (by omega) (by omega),
    fun grid hlen hrows row col =>
      get_neighbors_total grid w h row col hlen hrows (by omega) (by omega)⟩
  apply List.mem_map.mpr
  refine ⟨(-1, -1), by decide, ?_⟩
  show (wrap (((0 : ℕ) : ℤ) + (-1 : ℤ)) h, wrap (((0 : ℕ) : ℤ) + (-1 : ℤ)) w) = (h - 1, w - 1)
  rw [show ((0 : ℕ) : ℤ) + (-1 : ℤ) = -1 by norm_num]
  rw [wrap_neg_one h (by omega), wrap_neg_one w (by omega)]

theorem toroidal_neighbors_c9_witness :
    (∀ row col : ℕ, (neighbor_coords row col 3 3).length = 8) ∧
    ((3 : ℕ) - 1, (3 : ℕ) - 1) ∈ neighbor_coords 0 0 3 3 ∧
    (∀ row col : ℕ, ∀ rc ∈ neighbor_coords row col 3 3, rc.1 < 3 ∧ rc.2 < 3) ∧
    (∀ grid : List (List CellState), grid.length = 3 → (∀ r ∈ grid, r.length = 3) →
      ∀ row col : ℕ, ∃ ns, get_neighbors grid row col 3 3 = some ns ∧ ns.length = 8) :=
  toroidal_neighbors_c9 3 3 (by decide) (by decide)

end ClaimC9

section ClaimC4

theorem max_prob_index_four (a b c d : ℚ) :
    ∃ i, max_prob_index [a, b, c, d] = some i ∧ i < 4 ∧
      (∀ j, j < 4 → ([a, b, c, d]).getD j 0 ≤ ([a, b, c, d]).getD i 0) ∧
      (∀ j, i < j → j < 4 → ([a, b, c, d]).getD j 0 < ([a, b, c, d]).getD i 0) := by
  have he : ([a, b, c, d] : List ℚ).enum = [(0, a), (1, b), (2, c), (3, d)] := rfl
  by_cases h1 : b < a
  · by_cases h2 : c < a
    · by_cases h3 : d < a
      · refine ⟨0, ?_, by omega, ?_, ?_⟩
        · simp [max_prob_index, he, max_by_step, h1, h2, h3]
        · intro j hj
          interval_cases j <;> simp <;> linarith
        · intro j hij hj
          interval_cases j <;> simp <;> linarith
      · refine ⟨3, ?_, by omega, ?_, ?_⟩
        · simp [max_prob_index, he, max_by_step, h1, h2, h3]
        · intro j hj
          interval_cases j <;> simp <;> linarith
        · intro j hij hj
          interval_cases j <;> simp <;> linarith
    · by_cases h3 : d < c
      · refine ⟨2, ?_, by omega, ?_, ?_⟩
        · simp [max_prob_index, he, max_by_step, h1, h2, h3]
        · intro j hj
          interval_cases j <;> simp <;> linarith
        · intro j hij hj
          interval_cases j <;> simp <;> linarith
      · refine ⟨3, ?_, by omega, ?_, ?_⟩
        · simp [max_prob_index, he, max_by_step, h1, h2, h3]
        · intro j hj
          interval_cases j <;> simp <;> linarith
        · intro j hij hj
          interval_cases j <;> simp <;> linarith
  · by_cases h2 : c < b
    · by_cases h3 : d < b
      · refine ⟨1, ?_, by omega, ?_, ?_⟩
        · simp [max_prob_index, he, max_by_step, h1, h2, h3]
        · intro j hj
          interval_cases j <;> simp <;> linarith
        · intro j hij hj
          interval_cases j <;> simp <;> linarith
      · refine ⟨3, ?_, by omega, ?_, ?_⟩
        · simp [max_prob_index, he, max_by_step, h1, h2, h3]
        · intro j hj
          interval_cases j <;> simp <;> linarith
        · intro j hij hj
          interval_cases j <;> simp <;> linarith
    · by_cases h3 : d < c
      · refine ⟨2, ?_, by omega, ?_, ?_⟩
        · simp [max_prob_index, he, max_by_step, h1, h2, h3]
        · intro j hj
          interval_cases j <;> simp <;> linarith
        · intro j hij hj
          interval_cases j <;> simp <;> linarith
      · refine ⟨3, ?_, by omega, ?_, ?_⟩
        · simp [max_prob_index, he, max_by_step, h1, h2, h3]
        · intro j hj
          interval_cases j <;> simp <;> linarith
        · intro j hij hj
          interval_cases j <;> simp <;> linarith

end ClaimC4

section ClaimC4Counts

theorem bump_foldl_counts (l : List CellState) (dist : StateDistribution) :
    ((l.foldl bump dist).one =
      dist.one + l.countP (fun c => max_prob_index c.state_probabilities == some 0)) ∧
    ((l.foldl bump dist).minus_one =
      dist.minus_one + l.countP (fun c => max_prob_index c.state_probabilities == some 1)) ∧
    ((l.foldl bump dist).complex =
      dist.complex + l.countP (fun c => max_prob_index c.state_probabilities == some 2 ||
        max_prob_index c.state_probabilities == some 3)) := by
  induction l generalizing dist with
  | nil => simp
  | cons c cs ih =>
    obtain ⟨ih1, ih2, ih3⟩ := ih (bump dist c)
    rw [List.foldl_cons, List.countP_cons, List.countP_cons, List.countP_cons] at *
    refine ⟨?_, ?_, ?_⟩ <;>
      · cases hm : max_prob_index c.state_probabilities with
        | none =>
          simp only [bump, hm] at ih1 ih2 ih3 ⊢
          simp [hm]
          omega
        | some i =>
          rcases i with _ | _ | _ | _ | i <;>
            · simp only [bump, hm] at ih1 ih2 ih3 ⊢
              simp [hm]
              omega

end ClaimC4Counts


section ClaimC4Main

theorem half_eq : half = 1 / 2 := by
  have h := Rat.num_div_den half
  rw [show half.num = 1 from rfl, show half.den = 2 from rfl] at h
  rw [← h]
  norm_num

theorem counts_partition (l : List CellState)
    (h4 : ∀ c ∈ l, c.state_probabilities.length = 4) :
    l.countP (fun c => max_prob_index c.state_probabilities == some 0) +
      l.countP (fun c => max_prob_index c.state_probabilities == some 1) +
      l.countP (fun c => max_prob_index c.state_probabilities == some 2 ||
        max_prob_index c.state_probabilities == some 3) = l.length := by
  induction l with
  | nil => simp
  | cons c cs ih =>
    have hc4 := h4 c (by simp)
    obtain ⟨a, b, c2, d2, hl⟩ := exists_len4 _ hc4
    obtain ⟨i, hi, hlt, _, _⟩ := max_prob_index_four a b c2 d2
    rw [← hl] at hi
    have ihr := ih (fun x hx => h4 x (by simp [hx]))
    rw [List.countP_cons, List.countP_cons, List.countP_cons, List.length_cons]
    interval_cases i <;> simp [hi] <;> omega

/-- C4 amended: calculate_state_distribution classifies every cell of the grid
by the arg-max of its four probability components into exactly one of the
three buckets and returns the three counts (the bucket counts are the counts
of cells whose arg-max index is 0, is 1, or lies in the pair 2 and 3, and they
sum to the number of cells); but when several components tie for the maximum
the HIGHEST index wins, not the lowest: the returned index is maximal among
the components and strictly exceeds every later component. -/
theorem distribution_c4_amended (g : Grid)
    (h4 : ∀ row ∈ g.cells, ∀ c ∈ row, c.state_probabilities.length = 4) :
    ((Grid.calculate_state_distribution g).one =
      (g.cells.flatten).countP (fun c => max_prob_index c.state_probabilities == some 0)) ∧
    ((Grid.calculate_state_distribution g).minus_one =
      (g.cells.flatten).countP (fun c => max_prob_index c.state_probabilities == some 1)) ∧
    ((Grid.calculate_state_distribution g).complex =
      (g.cells.flatten).countP (fun c => max_prob_index c.state_probabilities == some 2 ||
        max_prob_index c.state_probabilities == some 3)) ∧
    ((Grid.calculate_state_distribution g).one + (Grid.calculate_state_distribution g).minus_one +
      (Grid.calculate_state_distribution g).complex = (g.cells.flatten).length) ∧
    (∀ row ∈ g.cells, ∀ c ∈ row, ∃ i, max_prob_index c.state_probabilities = some i ∧ i < 4 ∧
      (∀ j, j < 4 → c.state_probabilities.getD j 0 ≤ c.state_probabilities.getD i 0) ∧
      (∀ j, i < j → j < 4 →
        c.state_probabilities.getD j 0 < c.state_probabilities.getD i 0)) := by
  have hflat : ∀ c ∈ g.cells.flatten, c.state_probabilities.length = 4 := by
    intro c hc
    obtain ⟨row, hrow, hcm⟩ := List.mem_flatten.mp hc
    exact h4 row hrow c hcm
  have hdist : Grid.calculate_state_distribution g =
      (g.cells.flatten).foldl bump ⟨0, 0, 0⟩ := by
    unfold Grid.calculate_state_distribution
    rw [List.foldl_flatten]
  obtain ⟨h1, h2, h3⟩ := bump_foldl_counts (g.cells.flatten) ⟨0, 0, 0⟩
  have hz1 : ({ one := 0, minus_one := 0, complex := 0 } : StateDistribution).one = 0 := rfl
  have hz2 : ({ one := 0, minus_one := 0, complex := 0 } : StateDistribution).minus_one = 0 := rfl
  have hz3 : ({ one := 0, minus_one := 0, complex := 0 } : StateDistribution).complex = 0 := rfl
  rw [hz1] at h1
  rw [hz2] at h2
  rw [hz3] at h3
  refine ⟨by rw [hdist, h1, Nat.zero_add], by rw [hdist, h2, Nat.zero_add],
    by rw [hdist, h3, Nat.zero_add], ?_, ?_⟩
  · rw [hdist, h1, h2, h3]
    have := counts_partition (g.cells.flatten) hflat
    omega
  · intro row hrow c hc
    obtain ⟨a, b, c2, d2, hl⟩ := exists_len4 _ (h4 row hrow c hc)
    rw [hl]
    exact max_prob_index_four a b c2 d2

theorem distribution_c4_amended_witness :
    ((Grid.calculate_state_distribution tieGrid).one =
      (tieGrid.cells.flatten).countP
        (fun c => max_prob_index c.state_probabilities == some 0)) ∧
    ((Grid.calculate_state_distribution tieGrid).minus_one =
      (tieGrid.cells.flatten).countP
        (fun c => max_prob_index c.state_probabilities == some 1)) ∧
    ((Grid.calculate_state_distribution tieGrid).complex =
      (tieGrid.cells.flatten).countP
        (fun c => max_prob_index c.state_probabilities == some 2 ||
          max_prob_index c.state_probabilities == some 3)) ∧
    ((Grid.calculate_state_distribution tieGrid).one +
      (Grid.calculate_state_distribution tieGrid).minus_one +
      (Grid.calculate_state_distribution tieGrid).complex = (tieGrid.cells.flatten).length) ∧
    (∀ row ∈ tieGrid.cells, ∀ c ∈ row,
      ∃ i, max_prob_index c.state_probabilities = some i ∧ i < 4 ∧
      (∀ j, j < 4 → c.state_probabilities.getD j 0 ≤ c.state_probabilities.getD i 0) ∧
      (∀ j, i < j → j < 4 →
        c.state_probabilities.getD j 0 < c.state_probabilities.getD i 0)) :=
  distribution_c4_amended tieGrid (by
    intro row hrow c hc
    simp [tieGrid] at hrow
    rw [hrow] at hc
    simp at hc
    rw [hc]
    rfl)

/-- C4 counterexample: the cell [1/2, 1/2, 0, 0] ties for the maximum at
indices 0 and 1; first-index-wins classification would count it in the
dominant-state-0 bucket (one = 1), but the code returns arg-max index 1 (Rust
max_by keeps the last maximal element) and the histogram over the one-cell
grid is (one = 0, minus_one = 1, complex = 0), refuting lowest-index
tie-breaking. -/
theorem distribution_ties_c4_counterexample :
    half = 1 / 2 ∧
    tieCell.state_probabilities.getD 0 0 = tieCell.state_probabilities.getD 1 0 ∧
    max_prob_index tieCell.state_probabilities = some 1 ∧
    Grid.calculate_state_distribution tieGrid = ⟨0, 1, 0⟩ :=
  ⟨half_eq, rfl, by decide, by decide⟩

end ClaimC4Main
